import Mathlib

/-!
Verification model of the `dirty` command-line tool (`src/main.rs`).

The tool has two phases:

* discovery (`find_repos` / `collect_repos`): a depth-bounded recursive walk
  over the directory tree that records every directory containing a `.git`
  entry and prunes both below the depth bound and below recorded repositories;
* classification (`inspect_repo` / `ahead_of_upstream`): per-repository
  queries against the git backend (libgit2), combined by `run` with the
  filter flags `--dirty`, `--local` and `--unpushed`.

The filesystem is modelled as a finite graph of numbered directory nodes so
that symbolic-link cycles are representable; the recursive walk is given
explicit fuel, and we prove that the fuel does not matter once it exceeds the
depth bound.  The git backend is modelled as an oracle record carrying the
answers of the queries `inspect_repo` and `ahead_of_upstream` perform.
-/

namespace Dirty

/-- One directory entry as produced by `fs::read_dir`, with the data the walk
in `collect_repos` looks at: the file name, whether `path.is_dir()` holds
(this follows symlinks, so it is true for a symlink whose target is a
directory), whether `path.is_symlink()` holds, and the node id of the
directory the entry denotes (meaningful only for directories). -/
structure FsEntry where
  name : String
  isDir : Bool
  isSymlink : Bool
  target : Nat
deriving DecidableEq

/-- One directory node: whether `dir.join(".git").exists()` holds, whether
`fs::read_dir(dir)` succeeds, and the entries it yields when it does. -/
structure FsNode where
  hasGit : Bool
  readable : Bool
  entries : List FsEntry
deriving DecidableEq

/-- A filesystem: a partial map from node ids to directory nodes.  Symbolic
links may make the graph cyclic: a self-referential symlink is an entry whose
`target` is the id of the node that contains it. -/
def Fs : Type := Nat → Option FsNode

/-- Model of `collect_repos(dir, max_depth, depth, repos)`.  The walk is given
explicit `fuel` because the modelled filesystem graph may contain cycles; a
call with exhausted fuel returns no results.  Mirroring the source order:
first the `depth > max_depth` guard, then the `.git` check (record and stop),
then `read_dir` (stop silently on failure), then the loop over entries,
recursing exactly into entries with `path.is_dir() && !path.is_symlink()`.
Recording `dir.to_path_buf()` is modelled by returning the accumulated
component path `path`. -/
def collectRepos (fs : Fs) (maxDepth : Nat) (fuel : Nat) (id : Nat)
    (depth : Nat) (path : List String) : List (List String) :=
  match fuel with
  | 0 => []
  | fuel + 1 =>
    if maxDepth < depth then
      []
    else
      match fs id with
      | none => []
      | some node =>
        if node.hasGit then
          [path]
        else if !node.readable then
          []
        else
          node.entries.flatMap (fun e =>
            if e.isDir && !e.isSymlink then
              collectRepos fs maxDepth fuel e.target (depth + 1) (path ++ [e.name])
            else
              [])

/-- Model of `find_repos(base, max_depth)`: run `collect_repos` from the base
directory at depth `0`, then sort the collected paths (`repos.sort()`; `Vec`
sorting by the component-wise lexicographic order of paths).  Fuel
`maxDepth + 1` is enough: the walk never meaningfully recurses past the depth
bound. -/
def findRepos (fs : Fs) (maxDepth : Nat) (root : Nat) (rootPath : List String) :
    List (List String) :=
  List.insertionSort (· ≤ ·) (collectRepos fs maxDepth (maxDepth + 1) root 0 rootPath)

/-- Specification-side characterisation of the repository roots that discovery
should return: `ReachableRepo fs budget id names` holds when, starting from
node `id` with `budget` remaining descent levels, following the child entries
named by `names` leads through readable non-repository real directories (never
through a symlink) to a directory containing repository metadata, in at most
`budget` steps. -/
inductive ReachableRepo (fs : Fs) : Nat → Nat → List String → Prop where
  | here {budget id node} :
      fs id = some node → node.hasGit = true →
      ReachableRepo fs budget id []
  | step {budget id node e names} :
      fs id = some node → node.hasGit = false → node.readable = true →
      e ∈ node.entries → e.isDir = true → e.isSymlink = false →
      ReachableRepo fs budget e.target names →
      ReachableRepo fs (budget + 1) id (e.name :: names)

/-- Name uniqueness within each directory, as guaranteed by real filesystems:
the entries of any node carry pairwise distinct names. -/
def NodupNames (fs : Fs) : Prop :=
  ∀ id node, fs id = some node → (node.entries.map FsEntry.name).Nodup

/-- Agreement of two directory entries up to symlink targets: all fields the
walk inspects coincide, and the `target` coincides whenever the walk would
recurse into the entry (a real directory, not a symlink). -/
def EntryAgree (e e' : FsEntry) : Prop :=
  e.name = e'.name ∧ e.isDir = e'.isDir ∧ e.isSymlink = e'.isSymlink ∧
    (e.isDir = true → e.isSymlink = false → e.target = e'.target)

/-- Agreement of two directory nodes up to symlink targets. -/
def NodeAgree (n n' : FsNode) : Prop :=
  n.hasGit = n'.hasGit ∧ n.readable = n'.readable ∧
    List.Forall₂ EntryAgree n.entries n'.entries

/-- Agreement of two filesystems up to symlink targets: both define the same
node ids, and corresponding nodes agree up to symlink targets.  Two
filesystems related by `FsAgree` may disagree arbitrarily about where every
symbolic link points. -/
def FsAgree (fs fs' : Fs) : Prop :=
  ∀ id, match fs id, fs' id with
    | none, none => True
    | some n, some n' => NodeAgree n n'
    | _, _ => False

/-! ### Classifier model -/

/-- One row of a `git2::Statuses` result.  Only emptiness of the result set
matters to `inspect_repo`, so the payload is just the path of the entry. -/
structure StatusEntry where
  path : String
deriving DecidableEq

/-- The three `git2::StatusOptions` switches `inspect_repo` sets. -/
structure StatusOptions where
  include_untracked : Bool
  recurse_untracked_dirs : Bool
  exclude_submodules : Bool
deriving DecidableEq

/-- `StatusOptions::new()`: every switch starts out false. -/
def StatusOptions.new : StatusOptions :=
  ⟨false, false, false⟩

/-- The builder call `opts.include_untracked(v)`. -/
def StatusOptions.withIncludeUntracked (o : StatusOptions) (v : Bool) : StatusOptions :=
  { o with include_untracked := v }

/-- The builder call `opts.recurse_untracked_dirs(v)`. -/
def StatusOptions.withRecurseUntrackedDirs (o : StatusOptions) (v : Bool) : StatusOptions :=
  { o with recurse_untracked_dirs := v }

/-- The builder call `opts.exclude_submodules(v)`. -/
def StatusOptions.withExcludeSubmodules (o : StatusOptions) (v : Bool) : StatusOptions :=
  { o with exclude_submodules := v }

/-- The exact options value `inspect_repo` builds:
`include_untracked(true).recurse_untracked_dirs(false).exclude_submodules(true)`. -/
def inspectOpts : StatusOptions :=
  ((StatusOptions.new.withIncludeUntracked true).withRecurseUntrackedDirs
      false).withExcludeSubmodules true

/-- A git reference, with the two observations `ahead_of_upstream` makes:
`target()` (the commit id it points at, absent for symbolic or unborn
references) and `shorthand()` (the branch name, absent when not valid
UTF-8). Commit ids are modelled as naturals. -/
structure GitReference where
  target : Option Nat
  shorthand : Option String

/-- A git branch: its underlying reference (`Branch::get`) and its configured
upstream tracking branch (`Branch::upstream`, absent when none is configured
or it cannot be resolved). -/
inductive Branch where
  | mk (ref : GitReference) (upstream : Option Branch)

/-- `Branch::get()`. -/
def Branch.get : Branch → GitReference
  | .mk r _ => r

/-- `Branch::upstream()`, with `Err` collapsed to `none` as by `.ok()`. -/
def Branch.upstream : Branch → Option Branch
  | .mk _ u => u

/-- `git2::BranchType`. -/
inductive BranchType where
  | Local
  | Remote
deriving DecidableEq

/-- An opened repository, modelled as the oracle of backend query answers that
`inspect_repo` and `ahead_of_upstream` consume.  Every `Result`-returning
query appears with `Err` collapsed to `none`, matching the `.ok()` adapters in
the source. -/
structure Repository where
  statuses : StatusOptions → Option (List StatusEntry)
  remotes : Option (List String)
  head : Option GitReference
  find_branch : String → BranchType → Option Branch
  graph_ahead_behind : Nat → Nat → Option (Nat × Nat)

/-- `Repository::open`, per candidate path: the environment in which a batch
of inspections runs. -/
def RepoEnv : Type := List String → Option Repository

/-- The classification record `RepoInfo`. -/
structure RepoInfo where
  path : List String
  dirty : Bool
  local_only : Bool
  ahead : Option Nat

/-- Rust's `Option::is_none_or`: true on `None`, otherwise the predicate. -/
def isNoneOr (o : Option α) (p : α → Bool) : Bool :=
  match o with
  | none => true
  | some a => p a

/-- Model of `ahead_of_upstream(repo)`: resolve the head reference, its
commit, the branch name, the local branch, its upstream, the upstream commit,
then `graph_ahead_behind`; keep the ahead component and discard the behind
component.  Every failing step makes the whole computation `none`. -/
def ahead_of_upstream (repo : Repository) : Option Nat := do
  let head ← repo.head
  let head_oid ← head.target
  let name ← head.shorthand
  let branch ← repo.find_branch name BranchType.Local
  let upstream ← branch.upstream
  let upstream_ref := upstream.get
  let upstream_oid ← upstream_ref.target
  let ab ← repo.graph_ahead_behind head_oid upstream_oid
  pure ab.1

/-- Model of `inspect_repo(path, compute_unpushed)`: open the repository
(`None` on failure), query statuses with `inspectOpts` (`None` on failure),
derive dirtiness from non-emptiness, derive `local_only` from the remote list
with a failed query counting as no remotes, and compute the ahead count only
when requested. -/
def inspect_repo (openRepo : RepoEnv) (path : List String)
    (compute_unpushed : Bool) : Option RepoInfo := do
  let repo ← openRepo path
  let sts ← repo.statuses inspectOpts
  let dirty := !sts.isEmpty
  let local_only := isNoneOr repo.remotes (fun r => r.isEmpty)
  let ahead := if compute_unpushed then ahead_of_upstream repo else none
  pure { path := path, dirty := dirty, local_only := local_only, ahead := ahead }

/-- The filter flags of `run` (`args.dirty`, `args.local`, `args.unpushed`). -/
structure Filters where
  dirtyOnly : Bool
  localOnly : Bool
  unpushedOnly : Bool
deriving DecidableEq

/-- The filter predicate applied by `run` to each classification record. -/
def passes_filter (args : Filters) (i : RepoInfo) : Bool :=
  (!args.dirtyOnly || i.dirty) && (!args.localOnly || i.local_only) &&
    (!args.unpushedOnly || decide (0 < i.ahead.getD 0))

/-- The classification pipeline of `run` on an already-discovered list of
repository paths: inspect each (dropping failed inspections) and keep the
records passing the filter.  The parallel `par_iter` is modelled
sequentially; `rayon`'s indexed parallel collect preserves order. -/
def run_infos (openRepo : RepoEnv) (args : Filters) (repos : List (List String)) :
    List RepoInfo :=
  (repos.filterMap (fun p => inspect_repo openRepo p args.unpushedOnly)).filter
    (passes_filter args)

/-! ### Discovery lemmas -/

/-- One-step unfolding of the walk at positive fuel. -/
theorem collectRepos_succ (fs : Fs) (maxDepth fuel id depth : Nat) (path : List String) :
    collectRepos fs maxDepth (fuel + 1) id depth path =
      (if maxDepth < depth then
        []
      else
        match fs id with
        | none => []
        | some node =>
          if node.hasGit then
            [path]
          else if !node.readable then
            []
          else
            node.entries.flatMap (fun e =>
              if e.isDir && !e.isSymlink then
                collectRepos fs maxDepth fuel e.target (depth + 1) (path ++ [e.name])
              else
                [])) := rfl

/-- Past the depth bound the walk returns nothing, whatever the fuel. -/
theorem collectRepos_depth_exceeded (fs : Fs) (maxDepth fuel id depth : Nat)
    (path : List String) (h : maxDepth < depth) :
    collectRepos fs maxDepth fuel id depth path = [] := by
  cases fuel with
  | zero => rfl
  | succ k => rw [collectRepos_succ, if_pos h]

/-- One-step unfolding when the current directory cannot be read at all. -/
theorem collectRepos_succ_none (fs : Fs) (maxDepth fuel id depth : Nat)
    (path : List String) (hd : ¬maxDepth < depth) (h : fs id = none) :
    collectRepos fs maxDepth (fuel + 1) id depth path = [] := by
  rw [collectRepos_succ, if_neg hd, h]

/-- One-step unfolding when the current directory node exists. -/
theorem collectRepos_succ_some (fs : Fs) (maxDepth fuel id depth : Nat)
    (path : List String) (node : FsNode) (hd : ¬maxDepth < depth)
    (h : fs id = some node) :
    collectRepos fs maxDepth (fuel + 1) id depth path =
      (if node.hasGit then
        [path]
      else if !node.readable then
        []
      else
        node.entries.flatMap (fun e =>
          if e.isDir && !e.isSymlink then
            collectRepos fs maxDepth fuel e.target (depth + 1) (path ++ [e.name])
          else
            [])) := by
  rw [collectRepos_succ, if_neg hd, h]

/-- The result of the walk does not depend on the fuel, as soon as the fuel
exceeds the remaining depth budget: the depth guard already cuts every branch
the fuel could cut. -/
theorem collectRepos_fuel_irrelevant (fs : Fs) (maxDepth : Nat) :
    ∀ fuel₁ fuel₂ id depth path, maxDepth + 1 ≤ depth + fuel₁ →
      maxDepth + 1 ≤ depth + fuel₂ →
      collectRepos fs maxDepth fuel₁ id depth path =
        collectRepos fs maxDepth fuel₂ id depth path := by
  intro fuel₁
  induction fuel₁ with
  | zero =>
    intro fuel₂ id depth path h₁ h₂
    have hd : maxDepth < depth := by omega
    rw [collectRepos_depth_exceeded fs maxDepth 0 id depth path hd,
      collectRepos_depth_exceeded fs maxDepth fuel₂ id depth path hd]
  | succ k ih =>
    intro fuel₂ id depth path h₁ h₂
    by_cases hd : maxDepth < depth
    · rw [collectRepos_depth_exceeded fs maxDepth (k + 1) id depth path hd,
        collectRepos_depth_exceeded fs maxDepth fuel₂ id depth path hd]
    · cases fuel₂ with
      | zero => omega
      | succ k' =>
        cases hfs : fs id with
        | none =>
          rw [collectRepos_succ_none fs maxDepth k id depth path hd hfs,
            collectRepos_succ_none fs maxDepth k' id depth path hd hfs]
        | some node =>
          rw [collectRepos_succ_some fs maxDepth k id depth path node hd hfs,
            collectRepos_succ_some fs maxDepth k' id depth path node hd hfs]
          by_cases hg : node.hasGit = true
          · rw [if_pos hg, if_pos hg]
          · rw [if_neg hg, if_neg hg]
            by_cases hr : (!node.readable) = true
            · rw [if_pos hr, if_pos hr]
            · rw [if_neg hr, if_neg hr]
              have hfun : (fun e : FsEntry =>
                  if e.isDir && !e.isSymlink then
                    collectRepos fs maxDepth k e.target (depth + 1) (path ++ [e.name])
                  else []) =
                  (fun e : FsEntry =>
                  if e.isDir && !e.isSymlink then
                    collectRepos fs maxDepth k' e.target (depth + 1) (path ++ [e.name])
                  else []) := by
                funext e
                by_cases hc : (e.isDir && !e.isSymlink) = true
                · rw [if_pos hc, if_pos hc]
                  exact ih k' e.target (depth + 1) (path ++ [e.name]) (by omega) (by omega)
                · rw [if_neg hc, if_neg hc]
              rw [hfun]

/-- Concatenation of pointwise-equal images over `Forall₂`-related lists. -/
theorem flatMap_eq_of_forall₂ {α β : Type} {R : α → α → Prop} {l l' : List α}
    (h : List.Forall₂ R l l') (f g : α → List β)
    (hfg : ∀ a a', R a a' → f a = g a') : l.flatMap f = l'.flatMap g := by
  induction h with
  | nil => rfl
  | cons hab _ ih => simp only [List.flatMap_cons, hfg _ _ hab, ih]

/-- The walk never looks at what a symbolic link points to: over two
filesystems that agree up to symlink targets it returns the same paths. -/
theorem collectRepos_fs_agree {fs fs' : Fs} (h : FsAgree fs fs') (maxDepth : Nat) :
    ∀ fuel id depth path,
      collectRepos fs maxDepth fuel id depth path =
        collectRepos fs' maxDepth fuel id depth path := by
  intro fuel
  induction fuel with
  | zero => intro id depth path; rfl
  | succ k ih =>
    intro id depth path
    by_cases hd : maxDepth < depth
    · rw [collectRepos_depth_exceeded fs maxDepth (k + 1) id depth path hd,
        collectRepos_depth_exceeded fs' maxDepth (k + 1) id depth path hd]
    · have hid := h id
      cases hfs : fs id with
      | none =>
        cases hfs' : fs' id with
        | none =>
          rw [collectRepos_succ_none fs maxDepth k id depth path hd hfs,
            collectRepos_succ_none fs' maxDepth k id depth path hd hfs']
        | some node' => rw [hfs, hfs'] at hid; cases hid
      | some node =>
        cases hfs' : fs' id with
        | none => rw [hfs, hfs'] at hid; cases hid
        | some node' =>
          rw [hfs, hfs'] at hid
          obtain ⟨hgit, hread, hents⟩ := hid
          rw [collectRepos_succ_some fs maxDepth k id depth path node hd hfs,
            collectRepos_succ_some fs' maxDepth k id depth path node' hd hfs']
          rw [← hgit, ← hread]
          by_cases hg : node.hasGit = true
          · rw [if_pos hg, if_pos hg]
          · rw [if_neg hg, if_neg hg]
            by_cases hr : (!node.readable) = true
            · rw [if_pos hr, if_pos hr]
            · rw [if_neg hr, if_neg hr]
              exact flatMap_eq_of_forall₂ hents _ _ (fun e e' hee => by
                obtain ⟨hn, hdir, hsym, htar⟩ := hee
                rw [← hdir, ← hsym]
                by_cases hc : (e.isDir && !e.isSymlink) = true
                · rw [if_pos hc, if_pos hc]
                  have hc' := hc
                  simp only [Bool.and_eq_true, Bool.not_eq_true'] at hc'
                  rw [← htar hc'.1 hc'.2, ← hn]
                  exact ih e.target (depth + 1) (path ++ [e.name])
                · rw [if_neg hc, if_neg hc])

/-- A reachable repository lies within the descent budget. -/
theorem reachable_length {fs : Fs} :
    ∀ {budget id names}, ReachableRepo fs budget id names → names.length ≤ budget := by
  intro budget id names h
  induction h with
  | here _ _ => simp
  | step _ _ _ _ _ _ _ ih => simpa using Nat.succ_le_succ ih

/-- Membership characterisation of the walk: with a sound fuel, a path is
collected from a call at depth `depth` (with `budget` further levels allowed)
exactly when it extends the current path by a reachable repository. -/
theorem collectRepos_mem_iff (fs : Fs) (maxDepth : Nat) :
    ∀ fuel depth budget id path p, depth + budget = maxDepth →
      maxDepth + 1 ≤ depth + fuel →
      (p ∈ collectRepos fs maxDepth fuel id depth path ↔
        ∃ names, p = path ++ names ∧ ReachableRepo fs budget id names) := by
  intro fuel
  induction fuel with
  | zero =>
    intro depth budget id path p hdb hf
    omega
  | succ k ih =>
    intro depth budget id path p hdb hf
    have hd : ¬maxDepth < depth := by omega
    cases hfs : fs id with
    | none =>
      rw [collectRepos_succ_none fs maxDepth k id depth path hd hfs]
      simp only [List.not_mem_nil, false_iff]
      rintro ⟨names, rfl, hr⟩
      cases hr with
      | here h1 _ => rw [hfs] at h1; cases h1
      | step h1 _ _ _ _ _ _ => rw [hfs] at h1; cases h1
    | some node =>
      rw [collectRepos_succ_some fs maxDepth k id depth path node hd hfs]
      by_cases hg : node.hasGit = true
      · rw [if_pos hg]
        simp only [List.mem_singleton]
        constructor
        · rintro rfl
          exact ⟨[], by simp, ReachableRepo.here hfs hg⟩
        · rintro ⟨names, rfl, hr⟩
          cases hr with
          | here _ _ => simp
          | step h1 h2 _ _ _ _ _ =>
            rw [hfs] at h1
            injection h1 with h1
            subst h1
            rw [hg] at h2
            cases h2
      · rw [if_neg hg]
        have hgf : node.hasGit = false := by
          cases hx : node.hasGit
          · rfl
          · exact absurd hx hg
        by_cases hrd : (!node.readable) = true
        · rw [if_pos hrd]
          have hrf : node.readable = false := by
            cases hx : node.readable
            · rfl
            · rw [hx] at hrd; cases hrd
          simp only [List.not_mem_nil, false_iff]
          rintro ⟨names, rfl, hr⟩
          cases hr with
          | here h1 h2 =>
            rw [hfs] at h1; injection h1 with h1; subst h1; exact hg h2
          | step h1 _ h3 _ _ _ _ =>
            rw [hfs] at h1; injection h1 with h1; subst h1
            rw [hrf] at h3; cases h3
        · rw [if_neg hrd]
          have hrt : node.readable = true := by
            cases hx : node.readable
            · rw [hx] at hrd; exact absurd rfl hrd
            · rfl
          rw [List.mem_flatMap]
          cases budget with
          | zero =>
            constructor
            · rintro ⟨e, he, hp⟩
              by_cases hc : (e.isDir && !e.isSymlink) = true
              · rw [if_pos hc,
                  collectRepos_depth_exceeded fs maxDepth k e.target (depth + 1)
                    (path ++ [e.name]) (by omega)] at hp
                cases hp
              · rw [if_neg hc] at hp
                cases hp
            · rintro ⟨names, rfl, hr⟩
              cases hr with
              | here h1 h2 =>
                rw [hfs] at h1; injection h1 with h1; subst h1; exact absurd h2 hg
          | succ b =>
            constructor
            · rintro ⟨e, he, hp⟩
              by_cases hc : (e.isDir && !e.isSymlink) = true
              · rw [if_pos hc] at hp
                rw [ih (depth + 1) b e.target (path ++ [e.name]) p (by omega) (by omega)] at hp
                obtain ⟨names', hpe, hr'⟩ := hp
                have hc' := hc
                simp only [Bool.and_eq_true, Bool.not_eq_true'] at hc'
                refine ⟨e.name :: names', by simp [hpe], ?_⟩
                exact ReachableRepo.step hfs hgf hrt he hc'.1 hc'.2 hr'
              · rw [if_neg hc] at hp
                cases hp
            · rintro ⟨names, rfl, hr⟩
              cases hr with
              | here h1 h2 =>
                rw [hfs] at h1; injection h1 with h1; subst h1; exact absurd h2 hg
              | step h1 h2 h3 h4 h5 h6 h7 =>
                rw [hfs] at h1
                injection h1 with h1
                subst h1
                rename_i e names₀
                refine ⟨e, h4, ?_⟩
                rw [if_pos (by simp [h5, h6])]
                rw [ih (depth + 1) b e.target (path ++ [e.name]) _ (by omega) (by omega)]
                exact ⟨names₀, by simp, h7⟩

/-- Inversion: a repository reachable along an empty path is the current
directory itself, which then carries the metadata marker. -/
theorem reachable_nil {fs : Fs} {budget id : Nat}
    (h : ReachableRepo fs budget id []) :
    ∃ node, fs id = some node ∧ node.hasGit = true := by
  cases h with
  | here h1 h2 => exact ⟨_, h1, h2⟩

/-- Inversion: a repository reachable along `a :: names` goes through a real
(non-symlink) child directory named `a` of the current non-repository
directory. -/
theorem reachable_cons {fs : Fs} {budget id : Nat} {a : String} {names : List String}
    (h : ReachableRepo fs budget id (a :: names)) :
    ∃ budget₀ node e, fs id = some node ∧ node.hasGit = false ∧
      node.readable = true ∧ e ∈ node.entries ∧ e.isDir = true ∧
      e.isSymlink = false ∧ e.name = a ∧ budget = budget₀ + 1 ∧
      ReachableRepo fs budget₀ e.target names := by
  cases h with
  | step h1 h2 h3 h4 h5 h6 h7 =>
    exact ⟨_, _, _, h1, h2, h3, h4, h5, h6, rfl, rfl, h7⟩

/-- With unique names per directory, a reachable repository path has no
reachable strict extension: the walk stops at repository roots, so no deeper
directory along the same name path can also be reported. -/
theorem reachable_no_extension {fs : Fs} (hwf : NodupNames fs) :
    ∀ (names : List String) {budget budget' id : Nat} {r : List String},
      ReachableRepo fs budget id names →
      ReachableRepo fs budget' id (names ++ r) → r = [] := by
  intro names
  induction names with
  | nil =>
    intro budget budget' id r h1 h2
    obtain ⟨node, hn, hg⟩ := reachable_nil h1
    cases r with
    | nil => rfl
    | cons a r' =>
      rw [List.nil_append] at h2
      obtain ⟨b₀, node₂, e, g1, g2, _, _, _, _, _, _, _⟩ := reachable_cons h2
      rw [hn] at g1
      injection g1 with g1
      subst g1
      rw [hg] at g2
      cases g2
  | cons a names ih =>
    intro budget budget' id r h1 h2
    rw [List.cons_append] at h2
    obtain ⟨b₀, node, e, g1, g2, g3, g4, g5, g6, g7, g8, g9⟩ := reachable_cons h1
    obtain ⟨c₀, node₂, e₂, k1, k2, k3, k4, k5, k6, k7, k8, k9⟩ := reachable_cons h2
    rw [g1] at k1
    injection k1 with k1
    subst k1
    have hee : e₂ = e :=
      List.inj_on_of_nodup_map (hwf id node g1) k4 g4 (by rw [g7, k7])
    subst hee
    exact ih g9 k9

/-- C1: `discover` records a visited directory as a repository root whenever
it carries repository metadata, and the depth bound only limits descent; the
returned set is exactly the repository roots reachable within `maxDepth`
directory levels of the scan root (repository-marked directories reached
through readable, non-repository, non-symlink ancestors), and nothing beyond
the bound is returned. -/
theorem discover_exact_within_depth (fs : Fs) (maxDepth root : Nat)
    (rootPath p : List String) :
    p ∈ findRepos fs maxDepth root rootPath ↔
      ∃ names, p = rootPath ++ names ∧ names.length ≤ maxDepth ∧
        ReachableRepo fs maxDepth root names := by
  unfold findRepos
  rw [List.mem_insertionSort]
  rw [collectRepos_mem_iff fs maxDepth (maxDepth + 1) 0 maxDepth root rootPath p
    (by omega) (by omega)]
  constructor
  · rintro ⟨names, rfl, hr⟩
    exact ⟨names, rfl, reachable_length hr, hr⟩
  · rintro ⟨names, rfl, _, hr⟩
    exact ⟨names, rfl, hr⟩

/-- C2: on a filesystem with unique entry names per directory, no path
returned by `discover` is a strict descendant of another returned path: once
a directory is recognised as a repository root its subtree is never descended
into, so if one returned path extends another they are the same path. -/
theorem discover_no_nested (fs : Fs) (maxDepth root : Nat)
    (rootPath p q : List String) (hwf : NodupNames fs)
    (hp : p ∈ findRepos fs maxDepth root rootPath)
    (hq : q ∈ findRepos fs maxDepth root rootPath)
    (hdesc : ∃ r, q = p ++ r) : q = p := by
  obtain ⟨r, rfl⟩ := hdesc
  unfold findRepos at hp hq
  rw [List.mem_insertionSort] at hp hq
  rw [collectRepos_mem_iff fs maxDepth (maxDepth + 1) 0 maxDepth root rootPath _
    (by omega) (by omega)] at hp hq
  obtain ⟨n₁, hp1, hr1⟩ := hp
  obtain ⟨n₂, hq1, hr2⟩ := hq
  subst hp1
  rw [List.append_assoc] at hq1
  have hn : n₁ ++ r = n₂ := List.append_cancel_left hq1
  rw [← hn] at hr2
  have hr0 : r = [] := reachable_no_extension hwf n₁ hr1 hr2
  simp [hr0]

/-- C3: the sequence returned by `discover` is sorted in lexicographic path
order, and it is a function of the multiset of collected roots alone: any
reordering of the traversal output sorts to the same final sequence. -/
theorem discover_sorted_deterministic (fs : Fs) (maxDepth root : Nat)
    (rootPath : List String) :
    List.Sorted (· ≤ ·) (findRepos fs maxDepth root rootPath) ∧
    ∀ l : List (List String),
      l.Perm (collectRepos fs maxDepth (maxDepth + 1) root 0 rootPath) →
      List.insertionSort (· ≤ ·) l = findRepos fs maxDepth root rootPath := by
  constructor
  · exact List.sorted_insertionSort _ _
  · intro l hl
    unfold findRepos
    exact List.eq_of_perm_of_sorted
      ((List.perm_insertionSort _ l).trans
        (hl.trans (List.perm_insertionSort _ _).symm))
      (List.sorted_insertionSort _ _) (List.sorted_insertionSort _ _)

/-- C4: discovery never traverses a symbolic link to a directory, and the
recursive walk terminates on every filesystem graph, including one with a
self-referential symlink: the walk's value is independent of the fuel once
the fuel covers the depth bound (so a finite recursion depth always
suffices), and it is independent of where any symlink points. -/
theorem discover_symlink_safe (fs fs' : Fs) (maxDepth fuel₁ fuel₂ id depth : Nat)
    (path : List String) :
    (maxDepth + 1 ≤ depth + fuel₁ → maxDepth + 1 ≤ depth + fuel₂ →
      collectRepos fs maxDepth fuel₁ id depth path =
        collectRepos fs maxDepth fuel₂ id depth path) ∧
    (FsAgree fs fs' →
      collectRepos fs maxDepth fuel₁ id depth path =
        collectRepos fs' maxDepth fuel₁ id depth path) :=
  ⟨fun h₁ h₂ => collectRepos_fuel_irrelevant fs maxDepth fuel₁ fuel₂ id depth path h₁ h₂,
   fun h => collectRepos_fs_agree h maxDepth fuel₁ id depth path⟩

/-! ### Witness filesystems -/

/-- Witness filesystem: the scan root (node `0`) is a readable plain
directory holding the repository subdirectory `a` (node `1`) and a
self-referential symbolic link `loop` pointing back at node `0`. -/
def fsW : Fs := fun id =>
  match id with
  | 0 => some ⟨false, true, [⟨"a", true, false, 1⟩, ⟨"loop", true, true, 0⟩]⟩
  | 1 => some ⟨true, true, []⟩
  | _ => none

/-- The witness filesystem with the symlink retargeted at node `1`. -/
def fsW2 : Fs := fun id =>
  match id with
  | 0 => some ⟨false, true, [⟨"a", true, false, 1⟩, ⟨"loop", true, true, 1⟩]⟩
  | 1 => some ⟨true, true, []⟩
  | _ => none

/-- Discovery on the witness filesystem finds exactly the repository `a`. -/
theorem findRepos_fsW : findRepos fsW 1 0 [] = [["a"]] := rfl

/-- Every directory of the witness filesystem has uniquely named entries. -/
theorem nodupNames_fsW : NodupNames fsW := by
  intro id node h
  match id with
  | 0 =>
    simp only [fsW] at h
    injection h with h
    subst h
    decide
  | 1 =>
    simp only [fsW] at h
    injection h with h
    subst h
    decide
  | (n + 2) =>
    simp only [fsW] at h
    exact Option.noConfusion h

/-- Witness for C2 at a concrete input. -/
theorem discover_no_nested_witness :
    NodupNames fsW ∧ ["a"] ∈ findRepos fsW 1 0 [] ∧ (["a"] : List String) = ["a"] :=
  ⟨nodupNames_fsW,
   by rw [findRepos_fsW]; exact List.mem_singleton.mpr rfl,
   discover_no_nested fsW 1 0 [] ["a"] ["a"] nodupNames_fsW
     (by rw [findRepos_fsW]; exact List.mem_singleton.mpr rfl)
     (by rw [findRepos_fsW]; exact List.mem_singleton.mpr rfl)
     ⟨[], by simp⟩⟩

/-- Witness for C3 at a concrete input. -/
theorem discover_sorted_deterministic_witness :
    List.insertionSort (· ≤ ·) (collectRepos fsW 1 2 0 0 []) = findRepos fsW 1 0 [] :=
  (discover_sorted_deterministic fsW 1 0 []).2 _ (List.Perm.refl _)

/-- The two witness filesystems agree up to symlink targets. -/
theorem fsAgree_fsW_fsW2 : FsAgree fsW fsW2 := by
  intro id
  match id with
  | 0 =>
    simp only [fsW, fsW2, FsAgree]
    exact ⟨rfl, rfl,
      List.Forall₂.cons ⟨rfl, rfl, rfl, fun _ _ => rfl⟩
        (List.Forall₂.cons ⟨rfl, rfl, rfl, fun _ h => nomatch h⟩ List.Forall₂.nil)⟩
  | 1 =>
    simp only [fsW, fsW2, FsAgree]
    exact ⟨rfl, rfl, List.Forall₂.nil⟩
  | (n + 2) => simp only [fsW, fsW2, FsAgree]

/-- Witness for C4 at a concrete input: a filesystem with a self-referential
symlink, two different fuels, and a retargeted symlink. -/
theorem discover_symlink_safe_witness :
    collectRepos fsW 1 3 0 0 [] = collectRepos fsW 1 7 0 0 [] ∧
    collectRepos fsW 1 3 0 0 [] = collectRepos fsW2 1 3 0 0 [] :=
  ⟨(discover_symlink_safe fsW fsW2 1 3 7 0 0 []).1 (by omega) (by omega),
   (discover_symlink_safe fsW fsW2 1 3 7 0 0 []).2 fsAgree_fsW_fsW2⟩

/-! ### Classifier lemmas -/

/-- `inspect_repo` when opening the repository fails. -/
theorem inspect_repo_open_failed (openRepo : RepoEnv) (path : List String)
    (cu : Bool) (h : openRepo path = none) :
    inspect_repo openRepo path cu = none := by
  simp [inspect_repo, h]

/-- `inspect_repo` when the repository opens but the status query fails. -/
theorem inspect_repo_status_failed (openRepo : RepoEnv) (path : List String)
    (cu : Bool) (repo : Repository) (ho : openRepo path = some repo)
    (hs : repo.statuses inspectOpts = none) :
    inspect_repo openRepo path cu = none := by
  simp [inspect_repo, ho, hs]

/-- `inspect_repo` when both the open and the status query succeed. -/
theorem inspect_repo_success (openRepo : RepoEnv) (path : List String)
    (cu : Bool) (repo : Repository) (sts : List StatusEntry)
    (ho : openRepo path = some repo)
    (hs : repo.statuses inspectOpts = some sts) :
    inspect_repo openRepo path cu =
      some { path := path, dirty := !sts.isEmpty,
             local_only := isNoneOr repo.remotes (fun r => r.isEmpty),
             ahead := if cu then ahead_of_upstream repo else none } := by
  simp [inspect_repo, ho, hs]

/-- The ahead count is produced exactly when every step of the upstream
resolution chain succeeds, and it is the ahead component of
`graph_ahead_behind`; the behind component is discarded. -/
theorem ahead_of_upstream_some_iff (repo : Repository) (n : Nat) :
    ahead_of_upstream repo = some n ↔
      ∃ head head_oid name branch upstream upstream_oid behind,
        repo.head = some head ∧ head.target = some head_oid ∧
        head.shorthand = some name ∧
        repo.find_branch name BranchType.Local = some branch ∧
        branch.upstream = some upstream ∧
        upstream.get.target = some upstream_oid ∧
        repo.graph_ahead_behind head_oid upstream_oid = some (n, behind) := by
  constructor
  · intro h
    rw [ahead_of_upstream] at h
    cases hh : repo.head with
    | none => simp [hh] at h
    | some head =>
    simp only [hh, Option.bind_eq_bind, Option.some_bind] at h
    cases ht : head.target with
    | none => simp [ht] at h
    | some head_oid =>
    simp only [ht, Option.some_bind] at h
    cases hs : head.shorthand with
    | none => simp [hs] at h
    | some name =>
    simp only [hs, Option.some_bind] at h
    cases hb : repo.find_branch name BranchType.Local with
    | none => simp [hb] at h
    | some branch =>
    simp only [hb, Option.some_bind] at h
    cases hu : branch.upstream with
    | none => simp [hu] at h
    | some upstream =>
    simp only [hu, Option.some_bind] at h
    cases hut : upstream.get.target with
    | none => simp [hut] at h
    | some upstream_oid =>
    simp only [hut, Option.some_bind] at h
    cases hab : repo.graph_ahead_behind head_oid upstream_oid with
    | none => simp [hab] at h
    | some ab =>
    simp only [hab, Option.some_bind, Option.pure_def, Option.some.injEq] at h
    subst h
    exact ⟨head, head_oid, name, branch, upstream, upstream_oid, ab.2, rfl, ht,
      hs, hb, hu, hut, by rw [Prod.mk.eta]; exact hab⟩
  · rintro ⟨head, head_oid, name, branch, upstream, upstream_oid, behind,
      hh, ht, hs, hb, hu, hut, hab⟩
    rw [ahead_of_upstream]
    simp [hh, ht, hs, hb, hu, hut, hab]

/-- C5: the ahead count is populated only when the caller requested it; when
computed, it is the ahead component of the head-versus-upstream comparison
(the behind count is discarded), and any failing resolution step yields an
absent count rather than an error. -/
theorem ahead_count_spec :
    (∀ (openRepo : RepoEnv) (path : List String) (cu : Bool) (info : RepoInfo),
      inspect_repo openRepo path cu = some info →
        ((cu = false → info.ahead = none) ∧
         ∀ repo, openRepo path = some repo → cu = true →
           info.ahead = ahead_of_upstream repo)) ∧
    (∀ (repo : Repository) (n : Nat),
      ahead_of_upstream repo = some n ↔
        ∃ head head_oid name branch upstream upstream_oid behind,
          repo.head = some head ∧ head.target = some head_oid ∧
          head.shorthand = some name ∧
          repo.find_branch name BranchType.Local = some branch ∧
          branch.upstream = some upstream ∧
          upstream.get.target = some upstream_oid ∧
          repo.graph_ahead_behind head_oid upstream_oid = some (n, behind)) := by
  constructor
  · intro openRepo path cu info h
    cases ho : openRepo path with
    | none => rw [inspect_repo_open_failed openRepo path cu ho] at h; cases h
    | some repo =>
      cases hs : repo.statuses inspectOpts with
      | none =>
        rw [inspect_repo_status_failed openRepo path cu repo ho hs] at h
        cases h
      | some sts =>
        rw [inspect_repo_success openRepo path cu repo sts ho hs] at h
        injection h with h
        subst h
        constructor
        · intro hcu; simp [hcu]
        · intro repo' hrepo hcu
          injection hrepo with hrepo
          subst hrepo
          simp [hcu]
  · exact ahead_of_upstream_some_iff

/-- C6: whenever opening and the status query succeed, inspection succeeds
whatever the remote query returns, and the repository is local-only exactly
when the remote list is empty or the remote query itself failed. -/
theorem local_only_iff_no_remotes (openRepo : RepoEnv) (path : List String)
    (cu : Bool) (repo : Repository) (sts : List StatusEntry)
    (hopen : openRepo path = some repo)
    (hsts : repo.statuses inspectOpts = some sts) :
    ∃ info, inspect_repo openRepo path cu = some info ∧
      (info.local_only = true ↔
        (repo.remotes = none ∨ repo.remotes = some [])) := by
  refine ⟨_, inspect_repo_success openRepo path cu repo sts hopen hsts, ?_⟩
  simp only [isNoneOr]
  cases hr : repo.remotes with
  | none => simp
  | some r => cases r <;> simp

/-- C7: a successfully inspected repository is dirty exactly when the status
result set is non-empty, and the status query is made with untracked
top-level entries included, untracked directories not recursed into, and
submodule state excluded. -/
theorem dirty_iff_status_nonempty (openRepo : RepoEnv) (path : List String)
    (cu : Bool) (repo : Repository) (info : RepoInfo)
    (hopen : openRepo path = some repo)
    (h : inspect_repo openRepo path cu = some info) :
    inspectOpts.include_untracked = true ∧
    inspectOpts.recurse_untracked_dirs = false ∧
    inspectOpts.exclude_submodules = true ∧
    ∃ sts, repo.statuses inspectOpts = some sts ∧
      (info.dirty = true ↔ sts ≠ []) := by
  refine ⟨rfl, rfl, rfl, ?_⟩
  cases hs : repo.statuses inspectOpts with
  | none =>
    rw [inspect_repo_status_failed openRepo path cu repo hopen hs] at h
    cases h
  | some sts =>
    rw [inspect_repo_success openRepo path cu repo sts hopen hs] at h
    injection h with h
    subst h
    refine ⟨sts, rfl, ?_⟩
    cases sts <;> simp

/-- C8: a classification record passes the filter exactly when each requested
predicate holds, an absent ahead count being treated as zero; in particular a
record with indeterminate ahead status is excluded under `unpushedOnly`. -/
theorem filter_passes_iff (args : Filters) (i : RepoInfo) :
    (passes_filter args i = true ↔
      ((args.dirtyOnly = true → i.dirty = true) ∧
       (args.localOnly = true → i.local_only = true) ∧
       (args.unpushedOnly = true → 0 < i.ahead.getD 0))) ∧
    (i.ahead = none → args.unpushedOnly = true → passes_filter args i = false) := by
  constructor
  · cases hd : args.dirtyOnly <;> cases hl : args.localOnly <;>
      cases hu : args.unpushedOnly <;>
      simp [passes_filter, hd, hl, hu, and_assoc]
  · intro ha hu
    simp [passes_filter, ha, hu]

/-- C9: a path where opening fails yields an absent classification, and the
batch result over a list containing such a path equals the batch result with
that path removed: the remaining paths are still classified and included. -/
theorem unopenable_repo_skipped (openRepo : RepoEnv) (args : Filters)
    (p : List String) (ps₁ ps₂ : List (List String)) (h : openRepo p = none) :
    inspect_repo openRepo p args.unpushedOnly = none ∧
    run_infos openRepo args (ps₁ ++ p :: ps₂) =
      run_infos openRepo args (ps₁ ++ ps₂) := by
  have hnone : inspect_repo openRepo p args.unpushedOnly = none :=
    inspect_repo_open_failed openRepo p args.unpushedOnly h
  refine ⟨hnone, ?_⟩
  simp [run_infos, List.filterMap_append, List.filterMap_cons, hnone]

/-- C10: inspection yields an absent result exactly when opening fails or the
status query fails; a failed remote query alone never yields an absent
result, it only makes the repository count as local-only. -/
theorem inspect_absent_iff (openRepo : RepoEnv) (path : List String) (cu : Bool) :
    (inspect_repo openRepo path cu = none ↔
      (openRepo path = none ∨
        ∃ repo, openRepo path = some repo ∧
          repo.statuses inspectOpts = none)) ∧
    (∀ repo sts, openRepo path = some repo →
      repo.statuses inspectOpts = some sts → repo.remotes = none →
      ∃ info, inspect_repo openRepo path cu = some info ∧
        info.local_only = true) := by
  constructor
  · cases ho : openRepo path with
    | none => simp [inspect_repo_open_failed openRepo path cu ho, ho]
    | some repo =>
      cases hs : repo.statuses inspectOpts with
      | none =>
        simp [inspect_repo_status_failed openRepo path cu repo ho hs, ho, hs]
      | some sts =>
        simp [inspect_repo_success openRepo path cu repo sts ho hs, ho, hs]
  · intro repo sts ho hs hr
    refine ⟨_, inspect_repo_success openRepo path cu repo sts ho hs, ?_⟩
    simp [isNoneOr, hr]

/-! ### Witness repository oracle -/

/-- Witness upstream tracking branch, pointing at commit `7`. -/
def upstreamW : Branch := Branch.mk ⟨some 7, some "origin/main"⟩ none

/-- Witness local branch `main`, pointing at commit `5`, tracking
`upstreamW`. -/
def branchW : Branch := Branch.mk ⟨some 5, some "main"⟩ (some upstreamW)

/-- Witness repository: clean working tree, failed remote query, branch
`main` two commits ahead of its upstream. -/
def repoW : Repository :=
  ⟨fun _ => some [],
   none,
   some ⟨some 5, some "main"⟩,
   fun name ty => if name = "main" ∧ ty = BranchType.Local then some branchW else none,
   fun a b => if a = 5 ∧ b = 7 then some (2, 1) else none⟩

/-- Witness environment: only the empty path opens, as `repoW`. -/
def envW : RepoEnv := fun p => if p = [] then some repoW else none

/-- The record produced for `repoW` without the ahead computation. -/
def infoW : RepoInfo := ⟨[], false, true, none⟩

/-- The record produced for `repoW` with the ahead computation. -/
def infoW2 : RepoInfo := ⟨[], false, true, some 2⟩

/-- Witness for C5 at a concrete input. -/
theorem ahead_count_spec_witness :
    infoW.ahead = none ∧ infoW2.ahead = ahead_of_upstream repoW :=
  ⟨(ahead_count_spec.1 envW [] false infoW rfl).1 rfl,
   (ahead_count_spec.1 envW [] true infoW2 rfl).2 repoW rfl rfl⟩

/-- Witness for C6 at a concrete input. -/
theorem local_only_iff_no_remotes_witness :
    ∃ info, inspect_repo envW [] false = some info ∧
      (info.local_only = true ↔
        (repoW.remotes = none ∨ repoW.remotes = some [])) :=
  local_only_iff_no_remotes envW [] false repoW [] rfl rfl

/-- Witness for C7 at a concrete input. -/
theorem dirty_iff_status_nonempty_witness :
    inspectOpts.include_untracked = true ∧
    inspectOpts.recurse_untracked_dirs = false ∧
    inspectOpts.exclude_submodules = true ∧
    ∃ sts, repoW.statuses inspectOpts = some sts ∧
      (infoW.dirty = true ↔ sts ≠ []) :=
  dirty_iff_status_nonempty envW [] false repoW infoW rfl rfl

/-- Witness for C8 at a concrete input: an absent ahead count is excluded
under the unpushed-only filter. -/
theorem filter_passes_iff_witness :
    passes_filter ⟨false, false, true⟩ infoW = false :=
  (filter_passes_iff ⟨false, false, true⟩ infoW).2 rfl rfl

/-- Witness for C9 at a concrete input: a batch in which the middle path
cannot be opened classifies exactly like the batch without it. -/
theorem unopenable_repo_skipped_witness :
    inspect_repo envW ["b"] (Filters.mk false false false).unpushedOnly = none ∧
    run_infos envW ⟨false, false, false⟩ ([[]] ++ ["b"] :: []) =
      run_infos envW ⟨false, false, false⟩ ([[]] ++ []) :=
  unopenable_repo_skipped envW ⟨false, false, false⟩ ["b"] [[]] [] rfl

/-- Witness for C10 at a concrete input: a failed remote query still yields a
present record, marked local-only. -/
theorem inspect_absent_iff_witness :
    ∃ info, inspect_repo envW [] false = some info ∧ info.local_only = true :=
  (inspect_absent_iff envW [] false).2 repoW [] rfl rfl rfl

end Dirty
